import Mathlib

/-!
# Shallow embedding of the BrainSims core

Definitions translated from `simulateCycles.py`, `analysisTools.py` and
`pcnImplementation.py`.  Graphs are modelled as a node list plus an edge
list (a `networkx.DiGraph` has no parallel edges and iterates nodes and
edges in insertion order, so lists model the dict-backed sets faithfully).
Randomness (`random.randint`, `random.sample`) is modelled by passing the
drawn values in explicitly, together with a well-formedness predicate
stating exactly what the library guarantees about such draws.
-/

/-- Directed graph: a list of node identifiers and a list of directed
edges, mirroring a `networkx.DiGraph` (no parallel edges; every edge's
endpoints are members of the node set). -/
structure Graph where
  nodes : List Nat
  edges : List (Nat × Nat)
deriving DecidableEq, Repr

/-- `G.successors(u)` of networkx: targets of the edges leaving `u`. -/
def successors (G : Graph) (u : Nat) : List Nat :=
  (G.edges.filter (fun e => e.1 == u)).map (fun e => e.2)

/-- `G.predecessors(v)` of networkx: sources of the edges entering `v`. -/
def predecessors (G : Graph) (v : Nat) : List Nat :=
  (G.edges.filter (fun e => e.2 == v)).map (fun e => e.1)

/-- The graph invariant maintained by networkx: every edge endpoint is a
member of the node set. -/
def EdgesClosed (G : Graph) : Prop :=
  ∀ e ∈ G.edges, e.1 ∈ G.nodes ∧ e.2 ∈ G.nodes

/-! ## Activation simulator (`activate_cycles` in `simulateCycles.py`) -/

/-- Error taxonomy the spec attaches to the simulator configuration. -/
inductive SimError
  | configError
deriving DecidableEq, Repr

/-- `sum(active[pr] for pr in G.predecessors(node))`: the number of direct
predecessors of `node` that are active in `active`. -/
def countActivePreds (G : Graph) (active : Nat → Bool) (node : Nat) : Nat :=
  List.countP active (predecessors G node)

/-- The inner `for node in G.nodes()` loop of one simulation step: `old`
is the state `active` from the start of the step, `cur` is the dict
`new_active` being written (initially a copy of `active`); a node whose
active-predecessor count meets the threshold is set to `True` in
`new_active`, everything else keeps its copied value. -/
def stepFold (G : Graph) (θ : Int) (old : Nat → Bool) :
    List Nat → (Nat → Bool) → (Nat → Bool)
  | [], cur => cur
  | node :: rest, cur =>
      stepFold G θ old rest
        (if θ ≤ (countActivePreds G old node : Int) then
          (fun m => if m = node then true else cur m)
        else cur)

/-- One synchronous simulation step: `new_active = active.copy()`, then
the node loop, then `active = new_active`. -/
def step (G : Graph) (θ : Int) (active : Nat → Bool) : Nat → Bool :=
  stepFold G θ active G.nodes active

/-- The initial activation dict: all nodes `False`, then the sampled
`start_active` nodes set to `True`. -/
def initState (startActive : List Nat) : Nat → Bool :=
  fun n => startActive.contains n

/-- The activation state after `t` synchronous steps. -/
def stateAt (G : Graph) (θ : Int) (init : Nat → Bool) (t : Nat) : Nat → Bool :=
  (step G θ)^[t] init

/-- `activate_cycles(G, steps, activation_threshold)` with the random
initial sample passed in as `startActive`.  The Python function body
contains no `raise`, so no execution path produces an error value. -/
def activate_cycles (G : Graph) (startActive : List Nat) (steps : Nat)
    (θ : Int) : Except SimError (Nat → Bool) :=
  Except.ok (stateAt G θ (initState startActive) steps)

/-! ### Step lemmas -/

/-- Pointwise description of the node loop: a node gets `true` exactly
when it is visited and its active-predecessor count (in the old state)
meets the threshold; otherwise its accumulator value is kept. -/
theorem stepFold_apply (G : Graph) (θ : Int) (old : Nat → Bool)
    (l : List Nat) (cur : Nat → Bool) (n : Nat) :
    stepFold G θ old l cur n =
      if n ∈ l ∧ θ ≤ (countActivePreds G old n : Int) then true else cur n := by
  induction l generalizing cur with
  | nil => simp [stepFold]
  | cons a rest ih =>
      rw [stepFold, ih]
      by_cases hmem : n ∈ rest ∧ θ ≤ (countActivePreds G old n : Int)
      · simp [hmem, List.mem_cons, hmem.1, hmem.2]
      · rw [if_neg hmem]
        by_cases hna : n = a
        · subst hna
          by_cases hθ : θ ≤ (countActivePreds G old n : Int)
          · simp [hθ]
          · simp [hθ, hmem]
        · by_cases hθ : θ ≤ (countActivePreds G old a : Int)
          · simp only [if_pos hθ, if_neg hna]
            have : ¬(n ∈ a :: rest ∧ θ ≤ (countActivePreds G old n : Int)) := by
              intro ⟨hin, hc⟩
              rcases List.mem_cons.mp hin with h | h
              · exact hna h
              · exact hmem ⟨h, hc⟩
            rw [if_neg this]
          · rw [if_neg hθ]
            have : ¬(n ∈ a :: rest ∧ θ ≤ (countActivePreds G old n : Int)) := by
              intro ⟨hin, hc⟩
              rcases List.mem_cons.mp hin with h | h
              · exact hθ (h ▸ hc)
              · exact hmem ⟨h, hc⟩
            rw [if_neg this]

/-- Pointwise description of a full synchronous step. -/
theorem step_apply (G : Graph) (θ : Int) (old : Nat → Bool) (n : Nat) :
    step G θ old n =
      if n ∈ G.nodes ∧ θ ≤ (countActivePreds G old n : Int) then true
      else old n :=
  stepFold_apply G θ old G.nodes old n

/-- A step never deactivates a node. -/
theorem step_mono (G : Graph) (θ : Int) (old : Nat → Bool) (n : Nat)
    (h : old n = true) : step G θ old n = true := by
  rw [step_apply]
  split <;> simp [h]

/-- Activation can only grow along the run. -/
theorem stateAt_mono_add (G : Graph) (θ : Int) (init : Nat → Bool)
    (t : Nat) (n : Nat) (h : stateAt G θ init t n = true) :
    ∀ k, stateAt G θ init (t + k) n = true := by
  intro k
  induction k with
  | zero => exact h
  | succ k ih =>
      have : stateAt G θ init (t + (k + 1)) = step G θ (stateAt G θ init (t + k)) := by
        show (step G θ)^[t + (k + 1)] init = _
        rw [show t + (k + 1) = (t + k) + 1 by omega, Function.iterate_succ_apply']
        rfl
      rw [this]
      exact step_mono G θ _ n ih

/-- The node loop only reads the old state, so its result depends only on
which nodes are visited, not on the visiting order. -/
theorem stepFold_perm (G : Graph) (θ : Int) (old : Nat → Bool)
    (l : List Nat) (hl : l.Perm G.nodes) :
    stepFold G θ old l old = step G θ old := by
  funext n
  simp only [stepFold_apply, step_apply, hl.mem_iff]

/-- The empty-node-list step is the identity on states. -/
theorem step_empty (G : Graph) (θ : Int) (σ : Nat → Bool)
    (h : G.nodes = []) : step G θ σ = σ := by
  rw [step, h]
  rfl

/-- Concrete triangle graph used by the witnesses below. -/
def triangleGraph : Graph :=
  { nodes := [0, 1, 2], edges := [(0, 1), (1, 2), (2, 0)] }

/-- Unfolding one simulation step of the run. -/
theorem stateAt_succ (G : Graph) (θ : Int) (init : Nat → Bool) (t : Nat) :
    stateAt G θ init (t + 1) = step G θ (stateAt G θ init t) :=
  Function.iterate_succ_apply' (step G θ) t init

/-- C1: each step is computed synchronously from the state at the start of
the step: a node of the graph is active in the next state iff it was
already active or its count of active direct predecessors in the current
state meets the threshold; the node loop's result is invariant under
permuting the visiting order; and the simulation performs exactly `steps`
iterations of `step` with no early exit. -/
theorem simulator_synchronous_step (G : Graph) (sa : List Nat) (θ : Int)
    (steps : Nat) (n : Nat) (l : List Nat)
    (hn : n ∈ G.nodes) (hl : l.Perm G.nodes) :
    stateAt G θ (initState sa) (steps + 1) n =
      (stateAt G θ (initState sa) steps n ||
        decide (θ ≤ (countActivePreds G (stateAt G θ (initState sa) steps) n : Int))) ∧
    stepFold G θ (stateAt G θ (initState sa) steps) l
        (stateAt G θ (initState sa) steps) =
      step G θ (stateAt G θ (initState sa) steps) ∧
    activate_cycles G sa (steps + 1) θ =
      Except.ok (step G θ (stateAt G θ (initState sa) steps)) := by
  refine ⟨?_, stepFold_perm G θ _ l hl, ?_⟩
  · rw [stateAt_succ, step_apply]
    by_cases hθ : θ ≤ (countActivePreds G (stateAt G θ (initState sa) steps) n : Int)
    · simp [hn, hθ]
    · simp [hθ]
  · show Except.ok (stateAt G θ (initState sa) (steps + 1)) = _
    rw [stateAt_succ]

/-- Witness for C1 on the triangle graph. -/
theorem simulator_synchronous_step_witness :
    stateAt triangleGraph 1 (initState [0]) (0 + 1) 1 =
      (stateAt triangleGraph 1 (initState [0]) 0 1 ||
        decide ((1 : Int) ≤
          (countActivePreds triangleGraph (stateAt triangleGraph 1 (initState [0]) 0) 1 : Int))) ∧
    stepFold triangleGraph 1 (stateAt triangleGraph 1 (initState [0]) 0) [2, 0, 1]
        (stateAt triangleGraph 1 (initState [0]) 0) =
      step triangleGraph 1 (stateAt triangleGraph 1 (initState [0]) 0) ∧
    activate_cycles triangleGraph [0] (0 + 1) 1 =
      Except.ok (step triangleGraph 1 (stateAt triangleGraph 1 (initState [0]) 0)) :=
  simulator_synchronous_step triangleGraph [0] 1 0 1 [2, 0, 1] (by decide) (by decide)

/-- C5: activation is monotonically non-decreasing over a run, and a
single transition step never deactivates an active node. -/
theorem simulator_monotone (G : Graph) (θ : Int) (init : Nat → Bool)
    (n t t' : Nat) (σ : Nat → Bool)
    (htt : t < t') (ha : stateAt G θ init t n = true) (hσ : σ n = true) :
    stateAt G θ init t' n = true ∧ step G θ σ n = true := by
  constructor
  · have hsplit : t' = t + (t' - t) := by omega
    rw [hsplit]
    exact stateAt_mono_add G θ init t n ha _
  · exact step_mono G θ σ n hσ

/-- Witness for C5 on the triangle graph. -/
theorem simulator_monotone_witness :
    stateAt triangleGraph 1 (initState [0]) 2 0 = true ∧
    step triangleGraph 1 (initState [0]) 0 = true :=
  simulator_monotone triangleGraph 1 (initState [0]) 0 0 2 (initState [0])
    (by decide) rfl rfl

/-- C6: if the activation state at step `t` equals the state at step
`t + 1`, the state at step `t + k` equals the state at step `t` for every
`k > 0`. -/
theorem simulator_fixed_point (G : Graph) (θ : Int) (init : Nat → Bool)
    (t k : Nat) (hk : 0 < k)
    (h : stateAt G θ init t = stateAt G θ init (t + 1)) :
    stateAt G θ init (t + k) = stateAt G θ init t := by
  induction k with
  | zero => rfl
  | succ m ih =>
      cases Nat.eq_zero_or_pos m with
      | inl hm => rw [hm]; exact h.symm
      | inr hm =>
          rw [show t + (m + 1) = (t + m) + 1 by omega, stateAt_succ, ih hm, ← stateAt_succ]
          exact h.symm

/-- Witness for C6 on the empty graph, which is a fixed point at once. -/
theorem simulator_fixed_point_witness :
    stateAt (Graph.mk [] []) 1 (initState []) (0 + 1) =
      stateAt (Graph.mk [] []) 1 (initState []) 0 :=
  simulator_fixed_point (Graph.mk [] []) 1 (initState []) 0 1 (by decide) rfl

/-- C8 counterexample: a negative threshold is not rejected — the call
succeeds, and the lone predecessor-free node even becomes active, because
`0 ≥ -1`.  The Python body of `activate_cycles` contains no validation and
no `raise`. -/
theorem simulator_accepts_negative_threshold :
    (activate_cycles (Graph.mk [0] []) [] 1 (-1)).isOk = true ∧
    (activate_cycles (Graph.mk [0] []) [] 1 (-1)).toOption.map (fun s => s 0) =
      some true := by
  exact ⟨rfl, by decide⟩

/-- C8 amended: the simulator has no error condition at all — it succeeds
for every threshold, negative ones included — and an empty graph is valid
and leaves the (empty) initial state untouched, so every node reads
inactive. -/
theorem simulator_no_error_conditions (G : Graph) (sa : List Nat)
    (steps : Nat) (θ : Int) (n : Nat) :
    (activate_cycles G sa steps θ).isOk = true ∧
    (G.nodes = [] → stateAt G θ (initState []) steps n = false) := by
  refine ⟨rfl, fun h => ?_⟩
  have hconst : ∀ m, stateAt G θ (initState []) m = initState [] := by
    intro m
    induction m with
    | zero => rfl
    | succ m ih => rw [stateAt_succ, ih, step_empty G θ _ h]
  rw [hconst steps]
  rfl

/-- Witness for C8's amended statement on the empty graph with a negative
threshold. -/
theorem simulator_no_error_conditions_witness :
    (activate_cycles (Graph.mk [] []) [] 2 (-5)).isOk = true ∧
    stateAt (Graph.mk [] []) (-5) (initState []) 2 0 = false :=
  ⟨(simulator_no_error_conditions (Graph.mk [] []) [] 2 (-5) 0).1,
   (simulator_no_error_conditions (Graph.mk [] []) [] 2 (-5) 0).2 rfl⟩

/-! ## Graph generator (`build_toy_brain` in `simulateCycles.py`) -/

/-- The failure `random.sample` raises when the requested sample size
exceeds the population. -/
inductive BuildError
  | valueError
deriving DecidableEq, Repr

/-- The add-missing-endpoint part of networkx `G.add_edge`. -/
def addNode (G : Graph) (u : Nat) : Graph :=
  if u ∈ G.nodes then G else { G with nodes := G.nodes ++ [u] }

/-- networkx `G.add_edge(u, v)`: inserts missing endpoints into the node
set; re-adding an existing edge is a no-op (no parallel edges). -/
def add_edge (G : Graph) (u v : Nat) : Graph :=
  let G1 := addNode (addNode G u) v
  if (u, v) ∈ G1.edges then G1
  else { G1 with edges := G1.edges ++ [(u, v)] }

/-- The edges `(cycle_nodes[i], cycle_nodes[(i+1) % cycle_length])` for
`i in range(cycle_length)`, with `cycle_length = len(cycle_nodes)`. -/
def cycleEdges (sample : List Nat) : List (Nat × Nat) :=
  (List.range sample.length).map
    (fun i => (sample.getD i 0, sample.getD ((i + 1) % sample.length) 0))

/-- One embedding iteration: chain directed edges around the sampled
nodes, wrapping the last back to the first. -/
def addCycle (G : Graph) (sample : List Nat) : Graph :=
  (cycleEdges sample).foldl (fun H e => add_edge H e.1 e.2) G

/-- The `for _ in range(n_cycles)` loop of `build_toy_brain`.  Each item
of `draws` is the pair drawn in one iteration: the cycle length from
`random.randint(3, 6)` and the node list from
`random.sample(range(n_nodes), cycle_length)`; the latter raises
`ValueError` exactly when the requested length exceeds the population
size `n_nodes`. -/
def embedCycles (n_nodes : Nat) (G : Graph) :
    List (Nat × List Nat) → Except BuildError Graph
  | [] => Except.ok G
  | (len, sample) :: rest =>
      if n_nodes < len then Except.error BuildError.valueError
      else embedCycles n_nodes (addCycle G sample) rest

/-- `build_toy_brain(n_nodes, n_cycles)` with the per-iteration random
draws passed in explicitly (`draws.length = n_cycles`). -/
def build_toy_brain (n_nodes : Nat) (draws : List (Nat × List Nat)) :
    Except BuildError Graph :=
  embedCycles n_nodes { nodes := List.range n_nodes, edges := [] } draws

/-- What the random library guarantees about one draw: the length comes
from `randint(3, 6)`, and when sampling succeeds the sample consists of
that many distinct members of the population `range(n_nodes)`. -/
def WellFormedDraw (n_nodes : Nat) (d : Nat × List Nat) : Prop :=
  3 ≤ d.1 ∧ d.1 ≤ 6 ∧
    (d.1 ≤ n_nodes → d.2.length = d.1 ∧ d.2.Nodup ∧ ∀ x ∈ d.2, x < n_nodes)

instance (n : Nat) (d : Nat × List Nat) : Decidable (WellFormedDraw n d) := by
  unfold WellFormedDraw
  infer_instance

/-- Every draw of the run is well formed. -/
def WellFormedDraws (n_nodes : Nat) (draws : List (Nat × List Nat)) : Prop :=
  ∀ d ∈ draws, WellFormedDraw n_nodes d

instance (n : Nat) (draws : List (Nat × List Nat)) :
    Decidable (WellFormedDraws n draws) := by
  unfold WellFormedDraws
  infer_instance

/-! ### Generator lemmas -/

/-- `addNode` leaves the edge set unchanged. -/
theorem addNode_edges (G : Graph) (u : Nat) : (addNode G u).edges = G.edges := by
  unfold addNode
  split <;> rfl

/-- Any edge of `add_edge G u v` is an old edge or the added one. -/
theorem mem_add_edge (G : Graph) (u v : Nat) (e : Nat × Nat)
    (h : e ∈ (add_edge G u v).edges) : e ∈ G.edges ∨ e = (u, v) := by
  unfold add_edge at h
  simp only [addNode_edges] at h
  by_cases hmem : (u, v) ∈ G.edges
  · rw [if_pos (by simpa [addNode_edges] using hmem)] at h
    exact Or.inl (by simpa [addNode_edges] using h)
  · rw [if_neg (by simpa [addNode_edges] using hmem)] at h
    simp only [addNode_edges] at h
    rcases List.mem_append.mp h with h | h
    · exact Or.inl h
    · exact Or.inr (by simpa using h)

/-- Any edge of a fold of `add_edge` is an old edge or one of the added
pairs. -/
theorem mem_foldl_add_edge (l : List (Nat × Nat)) :
    ∀ (G : Graph) (e : Nat × Nat),
      e ∈ (l.foldl (fun H p => add_edge H p.1 p.2) G).edges →
      e ∈ G.edges ∨ e ∈ l := by
  induction l with
  | nil => intro G e h; exact Or.inl h
  | cons p rest ih =>
      intro G e h
      rcases ih (add_edge G p.1 p.2) e h with h1 | h1
      · rcases mem_add_edge G p.1 p.2 e h1 with h2 | h2
        · exact Or.inl h2
        · exact Or.inr (by simp [h2])
      · exact Or.inr (List.mem_cons_of_mem _ h1)

/-- The chained cycle edges connect distinct sampled nodes: with at least
two distinct nodes in the sample, no wrap-around edge is a self-loop. -/
theorem cycleEdges_no_self_loop (sample : List Nat)
    (hnd : sample.Nodup) (h2 : 2 ≤ sample.length) :
    ∀ e ∈ cycleEdges sample, e.1 ≠ e.2 := by
  intro e he
  unfold cycleEdges at he
  rcases List.mem_map.mp he with ⟨i, hi, hei⟩
  have hiL : i < sample.length := List.mem_range.mp hi
  have hjL : (i + 1) % sample.length < sample.length := Nat.mod_lt _ (by omega)
  subst hei
  simp only [List.getD_eq_getElem _ _ hiL, List.getD_eq_getElem _ _ hjL]
  intro heq
  have hij : i = (i + 1) % sample.length := hnd.getElem_inj_iff.mp heq
  rcases Nat.lt_or_ge (i + 1) sample.length with hlt | hge
  · rw [Nat.mod_eq_of_lt hlt] at hij
    omega
  · have hiL1 : i + 1 = sample.length := by omega
    rw [hiL1, Nat.mod_self] at hij
    omega

/-- Along a successful run of the embedding loop over well-formed draws,
freedom from self-loops is preserved. -/
theorem embedCycles_no_self_loop (n : Nat) :
    ∀ (draws : List (Nat × List Nat)) (G G' : Graph),
      WellFormedDraws n draws →
      (∀ e ∈ G.edges, e.1 ≠ e.2) →
      embedCycles n G draws = Except.ok G' →
      ∀ e ∈ G'.edges, e.1 ≠ e.2 := by
  intro draws
  induction draws with
  | nil =>
      intro G G' _ hG hok
      cases hok
      exact hG
  | cons d rest ih =>
      intro G G' hwf hG hok
      obtain ⟨len, sample⟩ := d
      by_cases hlen : n < len
      · rw [embedCycles, if_pos hlen] at hok
        cases hok
      · rw [embedCycles, if_neg hlen] at hok
        have hd : WellFormedDraw n (len, sample) := hwf _ (List.mem_cons_self _ _)
        have hprops := hd.2.2 (Nat.le_of_not_lt hlen)
        have hlen3 : 3 ≤ len := hd.1
        have hsl : sample.length = len := hprops.1
        have hnd : sample.Nodup := hprops.2.1
        refine ih (addCycle G sample) G' (fun d hd2 => hwf d (List.mem_cons_of_mem _ hd2)) ?_ hok
        intro e he
        rcases mem_foldl_add_edge (cycleEdges sample) G e he with h | h
        · exact hG e h
        · exact cycleEdges_no_self_loop sample hnd (by omega) e h

/-- The embedding loop succeeds exactly when every drawn cycle length
fits into the node population. -/
theorem embedCycles_isOk (n : Nat) :
    ∀ (draws : List (Nat × List Nat)) (G : Graph),
      (embedCycles n G draws).isOk = true ↔ ∀ d ∈ draws, d.1 ≤ n := by
  intro draws
  induction draws with
  | nil =>
      intro G
      simp [embedCycles, Except.isOk, Except.toBool]
  | cons d rest ih =>
      intro G
      obtain ⟨len, sample⟩ := d
      by_cases hlen : n < len
      · rw [embedCycles, if_pos hlen]
        constructor
        · intro h
          cases h
        · intro h
          have := h (len, sample) (List.mem_cons_self _ _)
          omega
      · rw [embedCycles, if_neg hlen]
        rw [ih]
        constructor
        · intro h d hd
          rcases List.mem_cons.mp hd with h1 | h1
          · subst h1
            exact Nat.le_of_not_lt hlen
          · exact h d h1
        · intro h d hd
          exact h d (List.mem_cons_of_mem _ hd)

/-- C7 counterexample: with node_count = 3 (which the claim says always
succeeds) and one embedding iteration whose well-formed random draw is a
cycle length of 4, `random.sample(range(3), 4)` fails, so generation
fails. -/
theorem build_fails_with_three_nodes :
    WellFormedDraws 3 [(4, [])] ∧
    build_toy_brain 3 [(4, [])] = Except.error BuildError.valueError :=
  ⟨by decide, rfl⟩

/-- C7 amended: over well-formed random draws, generation succeeds iff
every drawn cycle length (uniform in 3..6) is at most node_count; in
particular node_count < 3 with cycle_count > 0 always fails, but
node_count in {3, 4, 5} can also fail when a larger length is drawn, and
success is guaranteed for every random state only when node_count ≥ 6 or
cycle_count = 0.  The loop is bounded, so generation always terminates
(the embedding functions are total). -/
theorem build_succeeds_iff_lengths_fit (n : Nat)
    (draws : List (Nat × List Nat)) (h : WellFormedDraws n draws) :
    ((build_toy_brain n draws).isOk = true ↔ ∀ d ∈ draws, d.1 ≤ n) ∧
    (n < 3 → draws ≠ [] → (build_toy_brain n draws).isOk = false) := by
  constructor
  · exact embedCycles_isOk n draws _
  · intro hn hne
    cases draws with
    | nil => exact absurd rfl hne
    | cons d rest =>
        have h3 : 3 ≤ d.1 := (h d (List.mem_cons_self _ _)).1
        obtain ⟨len, sample⟩ := d
        have hlen : n < len := by
          have : 3 ≤ len := h3
          omega
        rw [build_toy_brain, embedCycles, if_pos hlen]
        rfl

/-- Witness for C7's amended statement: six nodes and one well-formed
draw of length 3 succeed. -/
theorem build_succeeds_iff_lengths_fit_witness :
    (build_toy_brain 6 [(3, [0, 1, 2])]).isOk = true :=
  (build_succeeds_iff_lengths_fit 6 [(3, [0, 1, 2])] (by decide)).1.mpr (by decide)

/-- C10: every graph returned by the generator is free of self-loops:
the sampled cycle nodes are distinct and each chained edge (including the
wrap-around one) joins two distinct sample positions. -/
theorem build_no_self_loops (n : Nat) (draws : List (Nat × List Nat))
    (G : Graph) (e : Nat × Nat)
    (h : WellFormedDraws n draws)
    (hok : build_toy_brain n draws = Except.ok G)
    (he : e ∈ G.edges) : e.1 ≠ e.2 :=
  embedCycles_no_self_loop n draws _ G h (by intro e he2; cases he2) hok e he

/-- Witness for C10 on a concrete successful generation. -/
theorem build_no_self_loops_witness : (0, 1).1 ≠ (0, 1).2 :=
  build_no_self_loops 6 [(3, [0, 1, 2])]
    (Graph.mk (List.range 6) [(0, 1), (1, 2), (2, 0)]) (0, 1)
    (by decide) rfl (by decide)

/-! ## Cycle enumerator (`find_all_cycles` in `analysisTools.py`) -/

/-- The shape of every emitted cycle: a simple path starting at the seed
node, closed by appending the seed again. -/
def GoodCycle (n maxLen : Nat) (c : List Nat) : Prop :=
  ∃ p : List Nat, c = p ++ [n] ∧ p.Nodup ∧ p.head? = some n ∧
    1 < p.length ∧ p.length ≤ maxLen

/-- The `for neighbor in G.successors(current)` loop of the DFS: emit
`path + [n]` when the neighbor closes the cycle within the length bound,
else push the extended frame (here: continue via `cont`) when the
neighbor is new to the path and the path can still grow. -/
def exploreSuccs (G : Graph) (n maxLen : Nat)
    (cont : Nat → List Nat → List (List Nat)) (path : List Nat) :
    List Nat → List (List Nat)
  | [] => []
  | nbr :: rest =>
      (if nbr = n ∧ 1 < path.length ∧ path.length ≤ maxLen then [path ++ [n]]
       else if nbr ∉ path ∧ path.length < maxLen then cont nbr (path ++ [nbr])
       else []) ++ exploreSuccs G n maxLen cont path rest

/-- Depth-first search seeded at `n`, with an explicit depth bound
`fuel`.  Every reachable frame keeps `maxLen < fuel + path.length`, so a
frame with `fuel = 0` has `path.length > maxLen`, for which the source
loop neither emits nor pushes anything — the cut-off is semantically
invisible for the initial `fuel = maxLen` used below. -/
def explore (G : Graph) (n maxLen : Nat) :
    Nat → Nat → List Nat → List (List Nat)
  | 0, _, _ => []
  | fuel + 1, current, path =>
      exploreSuccs G n maxLen (explore G n maxLen fuel) path
        (successors G current)

/-- `find_all_cycles(G, max_length)`: the DFS stack is seeded with
`(n, [n])` independently for every node `n` of `G`. -/
def find_all_cycles (G : Graph) (maxLen : Nat) : List (List Nat) :=
  G.nodes.flatMap (fun n => explore G n maxLen maxLen n [n])

/-- Soundness of the loop body, given soundness of the continuation on
pushed frames. -/
theorem exploreSuccs_sound (G : Graph) (n maxLen : Nat)
    (cont : Nat → List Nat → List (List Nat)) (path : List Nat)
    (hnd : path.Nodup) (hhead : path.head? = some n)
    (hcont : ∀ nbr, nbr ∉ path → path.length < maxLen →
      ∀ c ∈ cont nbr (path ++ [nbr]), GoodCycle n maxLen c) :
    ∀ succs, ∀ c ∈ exploreSuccs G n maxLen cont path succs,
      GoodCycle n maxLen c := by
  intro succs
  induction succs with
  | nil => intro c hc; cases hc
  | cons nbr rest ih =>
      intro c hc
      rw [exploreSuccs] at hc
      rcases List.mem_append.mp hc with h | h
      · by_cases h1 : nbr = n ∧ 1 < path.length ∧ path.length ≤ maxLen
        · rw [if_pos h1] at h
          have hc1 : c = path ++ [n] := List.mem_singleton.mp h
          exact ⟨path, hc1, hnd, hhead, h1.2.1, h1.2.2⟩
        · rw [if_neg h1] at h
          by_cases h2 : nbr ∉ path ∧ path.length < maxLen
          · rw [if_pos h2] at h
            exact hcont nbr h2.1 h2.2 c h
          · rw [if_neg h2] at h
            cases h
      · exact ih c h

/-- Soundness of the DFS: everything it emits is a simple closed path at
the seed, within the length bounds. -/
theorem explore_sound (G : Graph) (n maxLen : Nat) :
    ∀ (fuel : Nat) (current : Nat) (path : List Nat),
      path.Nodup → path.head? = some n →
      ∀ c ∈ explore G n maxLen fuel current path, GoodCycle n maxLen c := by
  intro fuel
  induction fuel with
  | zero =>
      intro current path _ _ c hc
      cases hc
  | succ fuel ih =>
      intro current path hnd hhead c hc
      rw [explore] at hc
      refine exploreSuccs_sound G n maxLen _ path hnd hhead ?_
        (successors G current) c hc
      intro nbr hnotin hlt c' hc'
      have hne : path ≠ [] := by
        intro h
        rw [h] at hhead
        cases hhead
      refine ih nbr (path ++ [nbr]) ?_ ?_ c' hc'
      · simp [List.nodup_append, hnd, hnotin]
      · rw [List.head?_append_of_ne_nil _ hne]
        exact hhead

/-- C2: every cycle returned by the enumerator is a closed walk (first
node equals last node) whose interior nodes — all positions except the
last — are pairwise distinct, and whose edge count lies between 2 and
`max_length` inclusive. -/
theorem cycles_well_formed (G : Graph) (maxLen : Nat) (c : List Nat)
    (hc : c ∈ find_all_cycles G maxLen) :
    c.head? = c.getLast? ∧ c.dropLast.Nodup ∧
    2 ≤ c.length - 1 ∧ c.length - 1 ≤ maxLen := by
  unfold find_all_cycles at hc
  rcases List.mem_flatMap.mp hc with ⟨n, hn, hcn⟩
  obtain ⟨p, hcp, hpnd, hphead, hp1, hp2⟩ :=
    explore_sound G n maxLen maxLen n [n] (by simp) rfl c hcn
  have hpne : p ≠ [] := by
    intro h
    rw [h] at hphead
    cases hphead
  subst hcp
  refine ⟨?_, ?_, ?_, ?_⟩
  · rw [List.head?_append_of_ne_nil _ hpne, List.getLast?_concat, hphead]
  · rw [List.dropLast_concat]
    exact hpnd
  · simp only [List.length_append, List.length_cons, List.length_nil]
    omega
  · simp only [List.length_append, List.length_cons, List.length_nil]
    omega

/-- Witness for C2: the triangle cycle found from start node 0. -/
theorem cycles_well_formed_witness :
    ([0, 1, 2, 0] : List Nat).head? = ([0, 1, 2, 0] : List Nat).getLast? ∧
    ([0, 1, 2, 0] : List Nat).dropLast.Nodup ∧
    2 ≤ ([0, 1, 2, 0] : List Nat).length - 1 ∧
    ([0, 1, 2, 0] : List Nat).length - 1 ≤ 3 :=
  cycles_well_formed triangleGraph 3 [0, 1, 2, 0] (by decide)

/-! ## Motif enumerator (`pcn_analysis` in `pcnImplementation.py`) -/

/-- The `for nbr in G.successors(curr)` loop of `pcn_analysis`: the
extended path is recorded and pushed only while its node count stays at
most 3 — `if len(new_path) <= 3` in the source counts nodes, not edges. -/
def pcnSuccs (G : Graph) (cont : Nat → List Nat → List (List Nat))
    (path : List Nat) : List Nat → List (List Nat)
  | [] => []
  | nbr :: rest =>
      (if (path ++ [nbr]).length ≤ 3 then
        (path ++ [nbr]) :: cont nbr (path ++ [nbr])
      else []) ++ pcnSuccs G cont path rest

/-- The LIFO worklist of `pcn_analysis`, as depth-first recursion with an
explicit depth bound `fuel`.  Reachable frames keep
`path.length + fuel ≥ 4`, so a frame with `fuel = 0` has
`path.length > 3` and the source's `continue` guard would discard it
anyway — the cut-off is semantically invisible for the initial
`fuel = 3` used below. -/
def pcnExplore (G : Graph) : Nat → Nat → List Nat → List (List Nat)
  | 0, _, _ => []
  | fuel + 1, curr, path =>
      if 3 < path.length then []
      else pcnSuccs G (pcnExplore G fuel) path (successors G curr)

/-- The multiset of node sequences recorded by `pcn_analysis(G)` over its
full sweep; the returned dict maps each distinct sequence to its number
of occurrences in this list. -/
def pcn_analysis (G : Graph) : List (List Nat) :=
  G.nodes.flatMap (fun node => pcnExplore G 3 node [node])

/-- The count `pcn_analysis(G)` associates with motif `m` (0 when `m` is
not a key of the dict). -/
def motifCount (G : Graph) (m : List Nat) : Nat :=
  (pcn_analysis G).count m

/-- C4: evaluation at the failing input, the 3-edge path graph
0 → 1 → 2 → 3.  The claim says the 3-edge walk `(0, 1, 2, 3)` (node
sequence of length 4) is recorded once; the code records only walks of
at most 2 edges (node sequences of length at most 3), because its bound
`len(new_path) <= 3` counts nodes where the docstring and the driver's
"<= 3 edges" output mean edges. -/
theorem pcn_misses_three_edge_walks :
    motifCount (Graph.mk [0, 1, 2, 3] [(0, 1), (1, 2), (2, 3)]) [0, 1, 2, 3] = 0 ∧
    motifCount (Graph.mk [0, 1, 2, 3] [(0, 1), (1, 2), (2, 3)]) [0, 1, 2] = 1 ∧
    motifCount (Graph.mk [0, 1, 2, 3] [(0, 1), (1, 2), (2, 3)]) [1, 2, 3] = 1 := by
  exact ⟨by decide, by decide, by decide⟩

/-! ## Graph collapser (`collapse_graph` in `pcnImplementation.py`) -/

/-- The failure Python raises when `clustering[u]` misses; the spec names
it `IncompleteClusteringError`. -/
inductive CollapseError
  | keyError
deriving DecidableEq, Repr

/-- Weighted digraph for the collapsed structure: cluster identifiers as
nodes, plus an association list from ordered cluster pairs to integer
weights (one entry per stored edge, as in networkx edge attributes). -/
structure WGraph where
  nodes : List Nat
  wedges : List ((Nat × Nat) × Nat)
deriving DecidableEq, Repr

/-- `clustering[u]` of a Python dict, as a partial lookup. -/
def clusterOf (clustering : List (Nat × Nat)) (u : Nat) : Option Nat :=
  clustering.lookup u

/-- `H.has_edge(a, b)`. -/
def has_edge (H : WGraph) (a b : Nat) : Bool :=
  (H.wedges.lookup (a, b)).isSome

/-- `H.add_edge(c_u, c_v, weight=1)` or `H[c_u][c_v]['weight'] += 1`. -/
def addOrInc (H : WGraph) (a b : Nat) : WGraph :=
  if has_edge H a b then
    { H with
      wedges := H.wedges.map (fun p => if p.1 = (a, b) then (p.1, p.2 + 1) else p) }
  else
    { H with wedges := H.wedges ++ [((a, b), 1)] }

/-- The `for (u, v) in G.edges()` loop of `collapse_graph`: look both
endpoints up in the clustering (`KeyError` when one is missing), drop
intra-cluster edges, aggregate the rest. -/
def collapseEdges (clustering : List (Nat × Nat)) (H : WGraph) :
    List (Nat × Nat) → Except CollapseError WGraph
  | [] => Except.ok H
  | (u, v) :: rest =>
      match clusterOf clustering u, clusterOf clustering v with
      | some cu, some cv =>
          if cu ≠ cv then collapseEdges clustering (addOrInc H cu cv) rest
          else collapseEdges clustering H rest
      | _, _ => Except.error CollapseError.keyError

/-- `collapse_graph(G, clustering)`: start from the supra-nodes
`set(clustering.values())` with no edges, then process every edge. -/
def collapse_graph (G : Graph) (clustering : List (Nat × Nat)) :
    Except CollapseError WGraph :=
  collapseEdges clustering
    { nodes := (clustering.map (fun p => p.2)).dedup, wedges := [] } G.edges

/-- The weight stored for collapsed edge `(a, b)` (0 when absent). -/
def weightOf (H : WGraph) (a b : Nat) : Nat :=
  (H.wedges.lookup (a, b)).getD 0

/-- Sum of all stored edge weights. -/
def totalWeight (H : WGraph) : Nat :=
  (H.wedges.map (fun p => p.2)).sum

/-- The ordered cluster pairs holding a stored edge. -/
def keysOf (H : WGraph) : List (Nat × Nat) :=
  H.wedges.map (fun p => p.1)

/-- How many edges of `es` map to the ordered cluster pair `(a, b)` with
`a ≠ b`. -/
def crossCount (C : List (Nat × Nat)) (es : List (Nat × Nat)) (a b : Nat) : Nat :=
  es.countP (fun e =>
    clusterOf C e.1 == some a && clusterOf C e.2 == some b && a != b)

/-- How many edges of `es` have endpoints in different clusters. -/
def crossTotal (C : List (Nat × Nat)) (es : List (Nat × Nat)) : Nat :=
  es.countP (fun e =>
    match clusterOf C e.1, clusterOf C e.2 with
    | some cu, some cv => cu != cv
    | _, _ => false)

/-! ### Collapse lemmas -/

/-- `List.lookup` on a cons cell, with a propositional key test. -/
theorem lookup_cons_pair (k pk : Nat × Nat) (pv : Nat)
    (t : List ((Nat × Nat) × Nat)) :
    ((pk, pv) :: t).lookup k = if k = pk then some pv else t.lookup k := by
  rw [List.lookup_cons]
  by_cases h : k = pk
  · rw [if_pos h, beq_iff_eq.mpr h]
  · rw [if_neg h, beq_false_of_ne h]

/-- Lookup after incrementing all entries with key `ab`. -/
theorem lookup_map_inc (l : List ((Nat × Nat) × Nat)) (ab k : Nat × Nat) :
    (l.map (fun p => if p.1 = ab then (p.1, p.2 + 1) else p)).lookup k =
      (l.lookup k).map (fun w => if k = ab then w + 1 else w) := by
  induction l with
  | nil => rfl
  | cons p t ih =>
      obtain ⟨pk, pv⟩ := p
      rw [List.map_cons]
      by_cases hp : (pk, pv).1 = ab
      · rw [if_pos hp]
        have hhd : ((pk, pv).1, (pk, pv).2 + 1) = (pk, pv + 1) := rfl
        rw [hhd, lookup_cons_pair, lookup_cons_pair]
        by_cases hk : k = pk
        · rw [if_pos hk, if_pos hk]
          have hkab : k = ab := by rw [hk]; exact hp
          simp [hkab]
        · rw [if_neg hk, if_neg hk, ih]
      · rw [if_neg hp]
        rw [lookup_cons_pair, lookup_cons_pair]
        by_cases hk : k = pk
        · rw [if_pos hk, if_pos hk]
          have hkab : ¬k = ab := by
            intro h
            exact hp (by rw [← hk]; exact h)
          simp [hkab]
        · rw [if_neg hk, if_neg hk, ih]

/-- Lookup after appending a single binding at the end. -/
theorem lookup_append_single (t : List ((Nat × Nat) × Nat)) (ab : Nat × Nat)
    (w : Nat) (k : Nat × Nat) :
    (t ++ [(ab, w)]).lookup k =
      match t.lookup k with
      | some v => some v
      | none => if k = ab then some w else none := by
  induction t with
  | nil =>
      show ([(ab, w)] : List ((Nat × Nat) × Nat)).lookup k = _
      rw [show ([(ab, w)] : List ((Nat × Nat) × Nat)) = (ab, w) :: [] from rfl,
        lookup_cons_pair]
      rfl
  | cons p t ih =>
      obtain ⟨pk, pv⟩ := p
      rw [List.cons_append, lookup_cons_pair, lookup_cons_pair]
      by_cases hk : k = pk
      · rw [if_pos hk, if_pos hk]
      · rw [if_neg hk, if_neg hk, ih]

/-- A key has a stored weight iff it is among the stored keys. -/
theorem lookup_isSome_iff_mem (t : List ((Nat × Nat) × Nat)) (k : Nat × Nat) :
    (t.lookup k).isSome = true ↔ k ∈ t.map (fun p => p.1) := by
  induction t with
  | nil => simp [List.lookup]
  | cons p t ih =>
      obtain ⟨pk, pv⟩ := p
      rw [lookup_cons_pair]
      by_cases hk : k = pk
      · simp [hk]
      · simp [hk, ih]

/-- `addOrInc` adds one to the weight of exactly the incremented pair and
keeps every other weight. -/
theorem weightOf_addOrInc (H : WGraph) (a b x y : Nat) :
    weightOf (addOrInc H a b) x y =
      weightOf H x y + (if (x, y) = ((a, b) : Nat × Nat) then 1 else 0) := by
  unfold weightOf addOrInc
  by_cases hmem : has_edge H a b
  · rw [if_pos hmem]
    show ((H.wedges.map fun p =>
      if p.1 = (a, b) then (p.1, p.2 + 1) else p).lookup (x, y)).getD 0 = _
    rw [lookup_map_inc]
    by_cases hxy : ((x, y) : Nat × Nat) = (a, b)
    · have hs : (H.wedges.lookup ((x, y) : Nat × Nat)).isSome = true := by
        rw [hxy]
        exact hmem
      obtain ⟨v, hv⟩ := Option.isSome_iff_exists.mp hs
      rw [hv]
      simp [hxy]
    · cases hl : H.wedges.lookup ((x, y) : Nat × Nat) <;> simp [hl, hxy]
  · rw [if_neg hmem]
    show ((H.wedges ++ [((a, b), 1)]).lookup (x, y)).getD 0 = _
    rw [lookup_append_single]
    have hnone : H.wedges.lookup ((a, b) : Nat × Nat) = none := by
      unfold has_edge at hmem
      exact Option.not_isSome_iff_eq_none.mp (by simpa using hmem)
    by_cases hxy : ((x, y) : Nat × Nat) = (a, b)
    · rw [hxy, hnone]
      simp [hxy]
    · cases hl : H.wedges.lookup ((x, y) : Nat × Nat) <;> simp [hl, hxy]

/-- `addOrInc` leaves the node list unchanged. -/
theorem addOrInc_nodes (H : WGraph) (a b : Nat) :
    (addOrInc H a b).nodes = H.nodes := by
  unfold addOrInc
  split <;> rfl

/-- The stored keys after `addOrInc`: unchanged when the pair was
present, extended by exactly that pair otherwise. -/
theorem keysOf_addOrInc (H : WGraph) (a b : Nat) :
    (has_edge H a b = true ∧ keysOf (addOrInc H a b) = keysOf H) ∨
    (has_edge H a b = false ∧
      keysOf (addOrInc H a b) = keysOf H ++ [((a, b) : Nat × Nat)]) := by
  by_cases hmem : has_edge H a b
  · left
    refine ⟨hmem, ?_⟩
    unfold addOrInc keysOf
    rw [if_pos hmem]
    show (H.wedges.map _).map _ = _
    rw [List.map_map]
    apply List.map_congr_left
    intro p _
    by_cases hp : p.1 = ((a, b) : Nat × Nat)
    · simp [hp]
    · simp [hp]
  · right
    refine ⟨by simpa using hmem, ?_⟩
    unfold addOrInc keysOf
    rw [if_neg hmem]
    show (H.wedges ++ [((a, b), 1)]).map _ = _
    rw [List.map_append]
    rfl

/-- `addOrInc` preserves distinctness of the stored keys. -/
theorem keysOf_addOrInc_nodup (H : WGraph) (a b : Nat)
    (h : (keysOf H).Nodup) : (keysOf (addOrInc H a b)).Nodup := by
  rcases keysOf_addOrInc H a b with ⟨_, heq⟩ | ⟨hfalse, heq⟩
  · rw [heq]
    exact h
  · rw [heq]
    have hnotin : ((a, b) : Nat × Nat) ∉ keysOf H := by
      intro hmem
      have hs := (lookup_isSome_iff_mem H.wedges (a, b)).mpr hmem
      unfold has_edge at hfalse
      rw [hs] at hfalse
      cases hfalse
    simp [List.nodup_append, h, hnotin]

/-- Keys present after `addOrInc` were present before or are the
incremented pair. -/
theorem mem_keysOf_addOrInc (H : WGraph) (a b : Nat) (k : Nat × Nat)
    (hk : k ∈ keysOf (addOrInc H a b)) :
    k ∈ keysOf H ∨ k = ((a, b) : Nat × Nat) := by
  rcases keysOf_addOrInc H a b with ⟨_, heq⟩ | ⟨_, heq⟩
  · rw [heq] at hk
    exact Or.inl hk
  · rw [heq] at hk
    rcases List.mem_append.mp hk with h | h
    · exact Or.inl h
    · exact Or.inr (List.mem_singleton.mp h)

/-- Incrementing an absent key is the identity. -/
theorem map_inc_id (t : List ((Nat × Nat) × Nat)) (ab : Nat × Nat)
    (h : ab ∉ t.map (fun p => p.1)) :
    t.map (fun p => if p.1 = ab then (p.1, p.2 + 1) else p) = t := by
  induction t with
  | nil => rfl
  | cons p t ih =>
      rw [List.map_cons] at h ⊢
      have h1 : ¬p.1 = ab := by
        intro he
        exact h (by simp [he])
      rw [if_neg h1, ih (fun hm => h (List.mem_cons_of_mem _ hm))]

/-- Incrementing a present key adds exactly one to the weight sum, given
distinct keys. -/
theorem sum_map_inc (t : List ((Nat × Nat) × Nat)) (ab : Nat × Nat)
    (hnd : (t.map (fun p => p.1)).Nodup) (hs : (t.lookup ab).isSome = true) :
    ((t.map (fun p => if p.1 = ab then (p.1, p.2 + 1) else p)).map
      (fun p => p.2)).sum = (t.map (fun p => p.2)).sum + 1 := by
  induction t with
  | nil => simp [List.lookup] at hs
  | cons p t ih =>
      obtain ⟨pk, pv⟩ := p
      rw [List.map_cons] at hnd
      have hpk : pk ∉ t.map (fun p => p.1) := (List.nodup_cons.mp hnd).1
      have hndt : (t.map (fun p => p.1)).Nodup := (List.nodup_cons.mp hnd).2
      by_cases hk : (pk, pv).1 = ab
      · rw [List.map_cons, if_pos hk]
        have hab : ab ∉ t.map (fun p => p.1) := by
          rw [← hk]
          exact hpk
        rw [map_inc_id t ab hab]
        simp [Nat.add_assoc, Nat.add_comm, Nat.add_left_comm]
      · rw [List.map_cons, if_neg hk]
        rw [lookup_cons_pair] at hs
        rw [if_neg (by intro h; exact hk h.symm)] at hs
        have := ih hndt hs
        simp only [List.map_cons, List.sum_cons, this]
        omega

/-- `addOrInc` always grows the total weight by exactly one, given
distinct stored keys. -/
theorem totalWeight_addOrInc (H : WGraph) (a b : Nat)
    (hnd : (keysOf H).Nodup) :
    totalWeight (addOrInc H a b) = totalWeight H + 1 := by
  unfold addOrInc
  by_cases hmem : has_edge H a b
  · rw [if_pos hmem]
    show ((H.wedges.map fun p : (Nat × Nat) × Nat =>
      if p.1 = (a, b) then (p.1, p.2 + 1) else p).map
        (fun p : (Nat × Nat) × Nat => p.2)).sum = _
    exact sum_map_inc H.wedges (a, b) hnd hmem
  · rw [if_neg hmem]
    show ((H.wedges ++ [((a, b), 1)]).map
      (fun p : (Nat × Nat) × Nat => p.2)).sum = _
    rw [List.map_append, List.sum_append]
    rfl

/-- Full description of a successful run of the edge loop: the node list
is untouched, each weight grows by the number of processed edges mapping
to that (ordered, distinct) cluster pair, the weight sum grows by the
number of processed inter-cluster edges, stored keys stay distinct, and
new keys are never self-pairs. -/
theorem collapseEdges_spec (C : List (Nat × Nat)) :
    ∀ (es : List (Nat × Nat)) (H : WGraph),
      (∀ e ∈ es, (clusterOf C e.1).isSome ∧ (clusterOf C e.2).isSome) →
      (keysOf H).Nodup →
      ∃ H', collapseEdges C H es = Except.ok H' ∧
        H'.nodes = H.nodes ∧
        (∀ a b, weightOf H' a b = weightOf H a b + crossCount C es a b) ∧
        totalWeight H' = totalWeight H + crossTotal C es ∧
        (keysOf H').Nodup ∧
        (∀ k ∈ keysOf H', k ∈ keysOf H ∨ k.1 ≠ k.2) := by
  intro es
  induction es with
  | nil =>
      intro H _ hnd
      exact ⟨H, rfl, rfl, fun a b => by simp [crossCount],
        by simp [crossTotal], hnd, fun k hk => Or.inl hk⟩
  | cons e rest ih =>
      intro H htot hnd
      obtain ⟨u, v⟩ := e
      obtain ⟨cu, hcu⟩ :=
        Option.isSome_iff_exists.mp (htot (u, v) (List.mem_cons_self _ _)).1
      obtain ⟨cv, hcv⟩ :=
        Option.isSome_iff_exists.mp (htot (u, v) (List.mem_cons_self _ _)).2
      have hcu' : clusterOf C u = some cu := hcu
      have hcv' : clusterOf C v = some cv := hcv
      have htot2 : ∀ e ∈ rest, (clusterOf C e.1).isSome ∧ (clusterOf C e.2).isSome :=
        fun e he => htot e (List.mem_cons_of_mem _ he)
      by_cases hne : cu = cv
      · -- intra-cluster edge: dropped
        obtain ⟨H', hok, hnodes, hw, htw, hnd', hkeys⟩ := ih H htot2 hnd
        refine ⟨H', ?_, hnodes, ?_, ?_, hnd', hkeys⟩
        · rw [collapseEdges, hcu', hcv']
          show (if cu ≠ cv then collapseEdges C (addOrInc H cu cv) rest
            else collapseEdges C H rest) = Except.ok H'
          rw [if_neg (by simp [hne])]
          exact hok
        · intro a b
          rw [hw]
          unfold crossCount
          rw [List.countP_cons]
          simp
          intro h1 h2
          rw [hcu'] at h1
          rw [hcv'] at h2
          injection h1 with h1
          injection h2 with h2
          omega
        · rw [htw]
          unfold crossTotal
          rw [List.countP_cons]
          simp [hcu', hcv', hne]
      · -- inter-cluster edge: aggregated
        obtain ⟨H', hok, hnodes, hw, htw, hnd', hkeys⟩ :=
          ih (addOrInc H cu cv) htot2 (keysOf_addOrInc_nodup H cu cv hnd)
        refine ⟨H', ?_, ?_, ?_, ?_, hnd', ?_⟩
        · rw [collapseEdges, hcu', hcv']
          show (if cu ≠ cv then collapseEdges C (addOrInc H cu cv) rest
            else collapseEdges C H rest) = Except.ok H'
          rw [if_pos hne]
          exact hok
        · rw [hnodes, addOrInc_nodes]
        · intro a b
          rw [hw, weightOf_addOrInc]
          unfold crossCount
          rw [List.countP_cons]
          have harith : ∀ x y z : Nat, x + y + z = x + (z + y) := by omega
          rw [harith]
          congr 1
          by_cases hab : ((a, b) : Nat × Nat) = (cu, cv)
          · rw [if_pos hab]
            rw [Prod.mk.injEq] at hab
            obtain ⟨ha, hb⟩ := hab
            subst ha
            subst hb
            simp [hcu', hcv', hne]
          · rw [if_neg hab]
            simp
            intro h1 h2
            rw [hcu'] at h1
            rw [hcv'] at h2
            injection h1 with h1
            injection h2 with h2
            exact absurd (by rw [← h1, ← h2]) hab
        · rw [htw, totalWeight_addOrInc H cu cv hnd]
          unfold crossTotal
          rw [List.countP_cons]
          simp only [hcu', hcv']
          simp [hne]
          omega
        · intro k hk
          rcases hkeys k hk with h | h
          · rcases mem_keysOf_addOrInc H cu cv k h with h2 | h2
            · exact Or.inl h2
            · right
              rw [h2]
              exact hne
          · exact Or.inr h

instance (G : Graph) : Decidable (EdgesClosed G) := by
  unfold EdgesClosed
  infer_instance

/-- C3: for a total clustering, collapsing succeeds; the collapsed node
set is exactly the distinct cluster identifiers of the clustering's value
set; each ordered pair of distinct clusters carries as weight exactly the
number of original edges mapping to it; intra-cluster edges never appear,
not even as self-loops; and the sum of all weights equals the number of
inter-cluster edges. -/
theorem collapse_correct (G : Graph) (C : List (Nat × Nat))
    (hclosed : EdgesClosed G)
    (htotal : ∀ nd ∈ G.nodes, (clusterOf C nd).isSome) :
    ∃ H, collapse_graph G C = Except.ok H ∧
      H.nodes = (C.map (fun p => p.2)).dedup ∧
      (∀ a b, weightOf H a b = crossCount C G.edges a b) ∧
      (∀ a, (a, a) ∉ keysOf H ∧ weightOf H a a = 0) ∧
      totalWeight H = crossTotal C G.edges := by
  have htot : ∀ e ∈ G.edges, (clusterOf C e.1).isSome ∧ (clusterOf C e.2).isSome :=
    fun e he => ⟨htotal _ (hclosed e he).1, htotal _ (hclosed e he).2⟩
  obtain ⟨H, hok, hnodes, hw, htw, hnd, hkeys⟩ :=
    collapseEdges_spec C G.edges
      { nodes := (C.map (fun p => p.2)).dedup, wedges := [] } htot (by simp [keysOf])
  have hw0 : ∀ a b, weightOf
      { nodes := (C.map (fun p => p.2)).dedup, wedges := [] } a b = 0 :=
    fun a b => rfl
  refine ⟨H, hok, by rw [hnodes], ?_, ?_, ?_⟩
  · intro a b
    rw [hw a b, hw0 a b]
    omega
  · intro a
    constructor
    · intro hmem
      rcases hkeys (a, a) hmem with h | h
      · simp [keysOf] at h
      · exact h rfl
    · rw [hw a a, hw0 a a]
      have hcc : crossCount C G.edges a a = 0 := by
        unfold crossCount
        simp
      omega
  · rw [htw]
    have h0 : totalWeight
        { nodes := (C.map (fun p => p.2)).dedup, wedges := [] } = 0 := rfl
    omega

/-- Witness for C3 on the triangle graph with clusters {0, 1} ↦ 5,
{2} ↦ 7. -/
theorem collapse_correct_witness :
    (collapse_graph triangleGraph [(0, 5), (1, 5), (2, 7)]).isOk = true := by
  obtain ⟨H, hok, -, -, -, -⟩ :=
    collapse_correct triangleGraph [(0, 5), (1, 5), (2, 7)] (by decide) (by decide)
  rw [hok]
  rfl

/-- The edge loop succeeds exactly when the clustering covers both
endpoints of every edge — isolated nodes are never looked up. -/
theorem collapseEdges_isOk (C : List (Nat × Nat)) :
    ∀ (es : List (Nat × Nat)) (H : WGraph),
      (collapseEdges C H es).isOk = true ↔
        ∀ e ∈ es, (clusterOf C e.1).isSome ∧ (clusterOf C e.2).isSome := by
  intro es
  induction es with
  | nil =>
      intro H
      constructor
      · intro _ e he
        cases he
      · intro _
        rfl
  | cons e rest ih =>
      intro H
      obtain ⟨u, v⟩ := e
      cases hcu : clusterOf C u with
      | none =>
          constructor
          · intro h
            rw [collapseEdges, hcu] at h
            simp [Except.isOk, Except.toBool] at h
          · intro h
            have h1 := (h (u, v) (List.mem_cons_self _ _)).1
            rw [show clusterOf C (u, v).1 = clusterOf C u from rfl, hcu] at h1
            simp at h1
      | some cu =>
          cases hcv : clusterOf C v with
          | none =>
              constructor
              · intro h
                rw [collapseEdges, hcu, hcv] at h
                simp [Except.isOk, Except.toBool] at h
              · intro h
                have h1 := (h (u, v) (List.mem_cons_self _ _)).2
                rw [show clusterOf C (u, v).2 = clusterOf C v from rfl, hcv] at h1
                simp at h1
          | some cv =>
              rw [collapseEdges, hcu, hcv]
              have hmem : ∀ (X : Except CollapseError WGraph) (hX : X.isOk = true ↔
                  ∀ e ∈ rest, (clusterOf C e.1).isSome ∧ (clusterOf C e.2).isSome),
                  (X.isOk = true ↔
                    ∀ e ∈ (u, v) :: rest,
                      (clusterOf C e.1).isSome ∧ (clusterOf C e.2).isSome) := by
                intro X hX
                rw [hX]
                constructor
                · intro h e he
                  rcases List.mem_cons.mp he with h1 | h1
                  · subst h1
                    exact ⟨by simp [hcu], by simp [hcv]⟩
                  · exact h e h1
                · intro h e he
                  exact h e (List.mem_cons_of_mem _ he)
              by_cases hne : cu = cv
              · show ((if cu ≠ cv then collapseEdges C (addOrInc H cu cv) rest
                  else collapseEdges C H rest).isOk = true ↔ _)
                rw [if_neg (by simp [hne])]
                exact hmem _ (ih H)
              · show ((if cu ≠ cv then collapseEdges C (addOrInc H cu cv) rest
                  else collapseEdges C H rest).isOk = true ↔ _)
                rw [if_pos hne]
                exact hmem _ (ih (addOrInc H cu cv))

/-- C9 amended: the collapser fails (Python `KeyError`, the spec's
`IncompleteClusteringError`) exactly when the clustering misses an
endpoint of some edge.  Every total clustering therefore succeeds, but a
non-total clustering that misses only isolated nodes also succeeds, so
non-totality alone does not make it fail. -/
theorem collapse_error_characterization (G : Graph) (C : List (Nat × Nat)) :
    ((collapse_graph G C).isOk = true ↔
      ∀ e ∈ G.edges, (clusterOf C e.1).isSome ∧ (clusterOf C e.2).isSome) ∧
    (EdgesClosed G → (∀ nd ∈ G.nodes, (clusterOf C nd).isSome) →
      (collapse_graph G C).isOk = true) := by
  constructor
  · exact collapseEdges_isOk C G.edges _
  · intro hclosed htotal
    exact (collapseEdges_isOk C G.edges _).mpr
      (fun e he => ⟨htotal _ (hclosed e he).1, htotal _ (hclosed e he).2⟩)

/-- Witness for C9's amended statement. -/
theorem collapse_error_characterization_witness :
    (collapse_graph triangleGraph [(0, 8), (1, 9), (2, 9)]).isOk = true :=
  (collapse_error_characterization triangleGraph [(0, 8), (1, 9), (2, 9)]).2
    (by decide) (by decide)

/-- C9 counterexample: a clustering that misses the only node of the
graph — hence is not total — still succeeds, because the node is
isolated and only edge endpoints are ever looked up. -/
theorem collapse_ok_on_missing_isolated_node :
    clusterOf [] 0 = none ∧ 0 ∈ (Graph.mk [0] []).nodes ∧
    (collapse_graph (Graph.mk [0] []) []).isOk = true :=
  ⟨rfl, by decide, rfl⟩
